import Mathlib

/-!
# Attribute sets: `src/libexpr/attr-set.hh`

A shallow embedding of `struct Attr` and `class Bindings`.

* Pointers are natural-number handles; the trailing array `Attr attrs[0]` is the memory
  following the header, a function from slot index to record.
* `Bindings::size_t` is `uint32_t`: every value of that type is reduced modulo `2^32`.
* `assert` is modelled as active: a failed assertion aborts, and the abort carries the state
  the object had at that moment.
* `std::lower_bound` is the library's halving loop, written out.
* `std::sort` promises a permutation of the range in non-decreasing order and nothing on the
  order of equivalent elements. `stdSort` is one procedure within that contract; the theorems
  about the code that go through it hold for every such procedure, and what depends on the
  order of equivalent elements is stated over the contract `SortsByName` instead.
-/

namespace nix

/-! ## Collaborators declared in headers that are not part of `src/` -/

/-- Modelled from the spec: the Identifier Handle of `symbol-table.hh`, which is missing. It is
"an interned, cheaply comparable token for a name; order is interning order, not lexical order";
the handle is the address `s` of the interned string. -/
structure Symbol where
  s : Nat
deriving DecidableEq, Repr

/-- Modelled from the spec: the "total order relation" of the Identifier Handle
(`Symbol::operator<`, in the missing `symbol-table.hh`): handles compare by interning address. -/
def Symbol.lt (a b : Symbol) : Bool := decide (a.s < b.s)

/-- Modelled from the spec: a `Value *`, a non-owning "reference to a heap value"; `Value` is only
forward-declared in the source. -/
structure ValueRef where
  addr : Nat
deriving DecidableEq, Repr

/-- The null pointer, written `0` in `Attr key(name, 0)`. -/
def nullValue : ValueRef := ⟨0⟩

/-- Modelled from the spec: the source position of `nixexpr.hh`, which is missing: "an opaque
reference type with a shared sentinel unknown-position value". -/
structure Pos where
  id : Nat
deriving DecidableEq, Repr

/-- Modelled from the spec: the shared sentinel `noPos` of the missing `nixexpr.hh`. -/
def noPos : Pos := ⟨0⟩

/-- Modelled from the spec: the part of the collector of `gc.hh` (missing) that this header
calls, the `assert_valid_object(ref)` check "usable at write time". The set of valid tracked
objects is a parameter of the model. -/
structure GC where
  assertObject : ValueRef → Bool

/-- Modelled from the spec: the `Error` thrown by `need`; the class is declared in a header that
is missing. It records the format string and the two arguments it is built from. -/
structure Error where
  fmt : String
  name : Symbol
  pos : Pos
deriving DecidableEq, Repr

/-- Reduction of an integer to `uint32_t`, the type `Bindings::size_t`. -/
def u32 (n : Nat) : Nat := n % 4294967296

/-! ## `struct Attr` -/

/-- Map one attribute name to its value. The constructor `Attr(name, value, pos = &noPos)` is
`Attr.mk` with the position written out. -/
structure Attr where
  name : Symbol
  value : ValueRef
  pos : Pos
deriving DecidableEq, Repr

/-- The comparison `Attr::operator<`: `return name < a.name;`. -/
def Attr.lt (self a : Attr) : Bool := self.name.lt a.name

/-! ## Library algorithms -/

/-- The loop of `std::lower_bound(first, first + len, key)` over the slot memory `attrs`, with
`operator<` as the comparison; `fuel` bounds the number of iterations. -/
def lower_boundLoop (attrs : Nat → Attr) (key : Attr) : Nat → Nat → Nat → Nat
  | 0, first, _ => first
  | fuel + 1, first, len =>
    if len = 0 then first
    else
      let half := len / 2
      let middle := first + half
      if (attrs middle).lt key then
        lower_boundLoop attrs key fuel (middle + 1) (len - half - 1)
      else
        lower_boundLoop attrs key fuel first half

/-- The call `std::lower_bound(first, last, key)`: `len` strictly decreases in every iteration,
so `last - first` iterations are always enough. -/
def lower_bound (attrs : Nat → Attr) (first last : Nat) (key : Attr) : Nat :=
  lower_boundLoop attrs key (last - first) first (last - first)

/-- Insertion of `a` into a sequence ordered by the strict comparison `less`: `a` goes in front
of the first element that is not less than `a`. This is a step of `stdSort`, not of the
library. -/
def stdSortInsert {α : Type} (less : α → α → Bool) (a : α) : List α → List α
  | [] => [a]
  | b :: l => if less b a then b :: stdSortInsert less a l else a :: b :: l

/-- One sorting procedure within the contract of `std::sort(first, last, less)`: an insertion
sort with the strict comparison `less`, on the sequence of elements of the range. The library
promises that the result is a permutation of the range in which no element is less than an
earlier one; where it puts elements that are equivalent is not specified, and the place this
procedure gives them (it keeps their order) is not a property of the library call. -/
def stdSort {α : Type} (less : α → α → Bool) : List α → List α
  | [] => []
  | a :: l => stdSortInsert less a (stdSort less l)

/-! ## `class Bindings` -/

/-- Bindings contains all the attributes of an attribute set: `misc` is the auxiliary word of
the `Object` header (it holds the capacity), `size_` the number of elements already inserted,
`attrs` the slots allocated after the structure. -/
structure Bindings where
  misc : Nat
  size_ : Nat
  attrs : Nat → Attr

/-- What a mutating member function ends in: it returns, leaving the object in state `b`, or an
assertion fails while the object is in state `b`. -/
inductive Outcome where
  | done (b : Bindings)
  | abort (b : Bindings)

/-- The state of the object when the member function has ended, either way. -/
def Outcome.state : Outcome → Bindings
  | Outcome.done b => b
  | Outcome.abort b => b

namespace Bindings

/-- The constructor `Bindings(size_t capacity) : Object(tBindings, capacity), size_(0)`, on a
block whose slots hold `mem`. -/
def new (capacity : Nat) (mem : Nat → Attr) : Bindings :=
  { misc := u32 capacity, size_ := 0, attrs := mem }

/-- The accessor `size_t size() const { return size_; }`. -/
def size (b : Bindings) : Nat := b.size_

/-- The test `bool empty() const { return !size_; }`. -/
def empty (b : Bindings) : Bool := b.size_ == 0

/-- The accessor `size_t capacity() const { return getMisc(); }`, converted to `size_t`. -/
def capacity (b : Bindings) : Nat := u32 b.misc

/-- The iterator `begin() { return &attrs[0]; }`, as a slot index. -/
def begin (_b : Bindings) : Nat := 0

/-- The iterator `end() { return &attrs[size_]; }`, as a slot index. -/
def end_ (b : Bindings) : Nat := b.size_

/-- The access `Attr & operator[](size_t pos) { return attrs[pos]; }`. -/
def index (b : Bindings) (pos : Nat) : Attr := b.attrs pos

/-- The append `push_back`: the two assertions, then `attrs[size_++] = attr`. -/
def push_back (gc : GC) (b : Bindings) (attr : Attr) : Outcome :=
  if ¬ (b.size_ < b.capacity) then Outcome.abort b
  else if ¬ (gc.assertObject attr.value = true) then Outcome.abort b
  else Outcome.done
    { b with attrs := Function.update b.attrs b.size_ attr, size_ := u32 (b.size_ + 1) }

/-- The lookup `find`: the iterator returned is the index of the slot it points to. -/
def find (b : Bindings) (name : Symbol) : Nat :=
  let key : Attr := ⟨name, nullValue, noPos⟩
  let i := lower_bound b.attrs b.begin b.end_ key
  if i ≠ b.end_ ∧ (b.attrs i).name = name then i else b.end_

/-- The lookup `get`: `none` is `nullptr`, `some i` the address of slot `i`. -/
def get (b : Bindings) (name : Symbol) : Option Nat :=
  let key : Attr := ⟨name, nullValue, noPos⟩
  let i := lower_bound b.attrs b.begin b.end_ key
  if i ≠ b.end_ ∧ (b.attrs i).name = name then some i else none

/-- The lookup `need`: the reference returned is the index of the slot; the exception is the
error value. A caller that leaves `pos` out passes `noPos`. -/
def need (b : Bindings) (name : Symbol) (pos : Pos) : Except Error Nat :=
  match b.get name with
  | none => Except.error ⟨"attribute \x27%s\x27 missing, at %s", name, pos⟩
  | some a => Except.ok a

/-- The elements of the range `[begin(), end())`. -/
def slots (b : Bindings) : List Attr := (List.range b.size_).map b.attrs

/-- Modelled from the spec: `Bindings::sort`, declared here and defined in `attr-set.cc`, which
is missing: it "reorders slots `[0, size)` into non-decreasing name order using the record-order
relation". The sorted range is written back over slots `[0, size)`. The procedure is `stdSort`;
the spec does not say where records with equal names go, see `Bindings.sortWith`. -/
def sort (b : Bindings) : Bindings :=
  { b with attrs := fun i => (stdSort Attr.lt b.slots).getD i (b.attrs i) }

/-- The enumeration `lexicographicOrder`: the vector of slot addresses, sorted by the text of
the names; `text` is the conversion `(const string &)` of a `Symbol`. The sort is `stdSort`;
where entries with equal texts go is not specified by the library. -/
def lexicographicOrder (text : Symbol → String) (b : Bindings) : List Nat :=
  stdSort (fun a c => decide (text (b.attrs a).name < text (b.attrs c).name))
    (List.range b.size_)

/-- The footprint `static size_t wordsFor(size_t capacity) { return 2 + 3 * capacity; }`, in
`uint32_t`. -/
def wordsFor (capacity : Nat) : Nat := u32 (2 + 3 * capacity)

/-- The footprint `size_t words() const { return wordsFor(capacity()); }`. -/
def words (b : Bindings) : Nat := wordsFor b.capacity

/-- Appending the records of a list one after the other, stopping at the first abort. -/
def pushAll (gc : GC) (b : Bindings) : List Attr → Outcome
  | [] => Outcome.done b
  | r :: rs =>
    match b.push_back gc r with
    | Outcome.done b' => pushAll gc b' rs
    | Outcome.abort b' => Outcome.abort b'

end Bindings

/-- The member functions of `Bindings`, as calls with their arguments. -/
inductive Op where
  | push_back (attr : Attr)
  | sort
  | find (name : Symbol)
  | get (name : Symbol)
  | need (name : Symbol) (pos : Pos)
  | lexicographicOrder
  | index (pos : Nat)
  | words

/-- The state of the object after a call. `push_back` and `sort` are the only member functions
that write to the object; the others only compute a result from it. -/
def Op.exec (gc : GC) (b : Bindings) : Op → Outcome
  | Op.push_back attr => b.push_back gc attr
  | Op.sort => Outcome.done b.sort
  | Op.find _ => Outcome.done b
  | Op.get _ => Outcome.done b
  | Op.need _ _ => Outcome.done b
  | Op.lexicographicOrder => Outcome.done b
  | Op.index _ => Outcome.done b
  | Op.words => Outcome.done b

/-- The states reachable from construction by calls that return. -/
inductive Reachable (gc : GC) : Bindings → Prop where
  | new (capacity : Nat) (mem : Nat → Attr) : Reachable gc (Bindings.new capacity mem)
  | call (b b' : Bindings) (op : Op) :
      Reachable gc b → op.exec gc b = Outcome.done b' → Reachable gc b'

/-! ## Concrete data used in the examples -/

/-- A collector for which every non-null reference is a tracked object. -/
def gcNonNull : GC := ⟨fun v => v.addr != 0⟩

/-- Uninitialised memory: every slot holds the same garbage record. -/
def junk : Nat → Attr := fun _ => ⟨⟨999⟩, nullValue, noPos⟩

/-- Three records with distinct names, none of them in name order. -/
def recB : Attr := ⟨⟨20⟩, ⟨101⟩, ⟨7⟩⟩

/-- Second example record. -/
def recA : Attr := ⟨⟨30⟩, ⟨102⟩, noPos⟩

/-- Third example record. -/
def recC : Attr := ⟨⟨10⟩, ⟨103⟩, ⟨9⟩⟩

/-- A record whose value is the null pointer. -/
def recNull : Attr := ⟨⟨40⟩, nullValue, noPos⟩

/-- A container of capacity 3 holding one record. -/
def oneOfThree : Bindings := { misc := 3, size_ := 1, attrs := Function.update junk 0 recB }

/-- A container in name order in which the name 20 occurs in slots 1, 2 and 3. -/
def withDuplicates : Bindings :=
  { misc := 6, size_ := 5,
    attrs := fun i => if i = 0 then recC else if i = 1 then recB
      else if i = 2 then ⟨⟨20⟩, ⟨104⟩, noPos⟩ else if i = 3 then ⟨⟨20⟩, ⟨105⟩, noPos⟩ else recA }

/-- A full container whose slots are in decreasing name order. -/
def unsortedThree : Bindings :=
  { misc := 3, size_ := 3, attrs := fun i => if i = 0 then recA else if i = 1 then recB else recC }

/-- A container of capacity 3 that is full. -/
def fullOfThree : Bindings :=
  { misc := 3, size_ := 3, attrs := fun i => if i = 0 then recC else if i = 1 then recB else recA }

/-! ## Further definitions: orders, enumeration, tracing -/

/-- The comparison `Attr::operator<`, `return name < a.name;`, over an order `symLt` of `Symbol`
that is left open: `symbol-table.hh`, which declares the order, is missing. -/
def Attr.ltBy (symLt : Symbol → Symbol → Bool) (self a : Attr) : Bool := symLt self.name a.name

/-- What a record shows to a reader, whatever the interning: the text of its name, its value and
its position; `text` is the conversion `(const string &)` of a `Symbol`. -/
def Attr.shown (text : Symbol → String) (a : Attr) : String × ValueRef × Pos :=
  (text a.name, a.value, a.pos)

/-- The records that the entries of `lexicographicOrder()` point to, in the order of the
vector. -/
def Bindings.lexicographicRecords (text : Symbol → String) (b : Bindings) :
    List (String × ValueRef × Pos) :=
  (b.lexicographicOrder text).map (fun i => (b.attrs i).shown text)

/-- Modelled from the spec: the tracing of a container by the collector. `class GC` is only named
here, as a friend of `Bindings`; its code is missing. "When the collector traces a container to
find reachable value references, it must only visit slots `[0, size)`, never `[0, capacity)`";
it is invoked "with `(block, declared_capacity_word, current_size)` so it knows the valid
prefix". The result lists the slots visited, in order. -/
def GC.traceSlots (_gc : GC) (b : Bindings) : List Nat := List.range b.size_

/-- Modelled from the spec: the value references the collector finds when it traces a
container, one for each slot it visits. -/
def GC.trace (gc : GC) (b : Bindings) : List ValueRef :=
  (gc.traceSlots b).map (fun i => (b.attrs i).value)

/-- An interning in which "b" was interned first, then "a", then "c". -/
def textBAC : Symbol → String :=
  fun n => if n.s = 1 then "b" else if n.s = 2 then "a" else if n.s = 3 then "c" else ""

/-- An interning in which "c" was interned first, then "b", then "a". -/
def textCBA : Symbol → String :=
  fun n => if n.s = 10 then "c" else if n.s = 20 then "b" else if n.s = 30 then "a" else ""

/-- The records "b", "a", "c" appended in this order under the interning `textBAC`. -/
def builtBAC : Bindings :=
  (Bindings.pushAll gcNonNull (Bindings.new 3 junk)
    [⟨⟨1⟩, ⟨101⟩, noPos⟩, ⟨⟨2⟩, ⟨102⟩, noPos⟩, ⟨⟨3⟩, ⟨103⟩, noPos⟩]).state

/-- The same records appended in the order "a", "c", "b" under the interning `textCBA`, in a
larger block. -/
def builtACB : Bindings :=
  (Bindings.pushAll gcNonNull (Bindings.new 5 junk)
    [⟨⟨30⟩, ⟨102⟩, noPos⟩, ⟨⟨10⟩, ⟨103⟩, noPos⟩, ⟨⟨20⟩, ⟨101⟩, noPos⟩]).state

/-- A container that is not in name order and holds the name 20 twice. -/
def unsortedDup : Bindings :=
  { misc := 4, size_ := 3,
    attrs := fun i => if i = 0 then recB else if i = 1 then recC else ⟨⟨20⟩, ⟨104⟩, noPos⟩ }

/-- The container `oneOfThree` with other garbage behind its one record. -/
def oneOfThreeOther : Bindings :=
  { misc := 3, size_ := 1, attrs := fun i => if i = 0 then recB else recA }

/-! ## Sorting procedures and the order of equal names -/

/-- Modelled from the spec: `Bindings::sort`, defined in the missing `attr-set.cc`, over a
sorting procedure `srt` that is left open: it "reorders slots `[0, size)` into non-decreasing
name order using the record-order relation". The sorted range is written back over slots
`[0, size)`. `Bindings.sort` is the case `srt = stdSort Attr.lt`. -/
def Bindings.sortWith (srt : List Attr → List Attr) (b : Bindings) : Bindings :=
  { b with attrs := fun i => (srt b.slots).getD i (b.attrs i) }

end nix

/-! # Properties -/

namespace nix

open Bindings

/-! ## Arithmetic in `uint32_t` -/

theorem u32_lt (n : Nat) : u32 n < 4294967296 := by
  unfold u32; omega

theorem u32_of_lt {n : Nat} (h : n < 4294967296) : u32 n = n := by
  unfold u32; omega

theorem capacity_lt (b : Bindings) : b.capacity < 4294967296 := u32_lt _

theorem u32_succ_size {b : Bindings} (h : b.size_ < b.capacity) :
    u32 (b.size_ + 1) = b.size_ + 1 := by
  have := capacity_lt b
  exact u32_of_lt (by omega)

/-- Below the wrap-around point `wordsFor` is the exact footprint. -/
theorem wordsFor_of_le {capacity : Nat} (h : capacity ≤ 1431655764) :
    wordsFor capacity = 2 + 3 * capacity := by
  unfold wordsFor; exact u32_of_lt (by omega)

/-! ## `push_back` -/

theorem push_back_done {gc : GC} {b : Bindings} {r : Attr}
    (hlt : b.size_ < b.capacity) (hv : gc.assertObject r.value = true) :
    b.push_back gc r = Outcome.done
      { b with attrs := Function.update b.attrs b.size_ r, size_ := b.size_ + 1 } := by
  unfold push_back
  rw [if_neg (not_not.mpr hlt), if_neg (not_not.mpr hv), u32_succ_size hlt]

theorem push_back_abort {gc : GC} {b : Bindings} {r : Attr}
    (h : ¬ (b.size_ < b.capacity ∧ gc.assertObject r.value = true)) :
    b.push_back gc r = Outcome.abort b := by
  unfold push_back
  by_cases hlt : b.size_ < b.capacity
  · have hv : ¬ gc.assertObject r.value = true := fun hv => h ⟨hlt, hv⟩
    rw [if_neg (not_not.mpr hlt), if_pos hv]
  · rw [if_pos hlt]

theorem push_back_done_inv {gc : GC} {b b' : Bindings} {r : Attr}
    (h : b.push_back gc r = Outcome.done b') :
    b.size_ < b.capacity ∧ gc.assertObject r.value = true ∧
      b' = { b with attrs := Function.update b.attrs b.size_ r, size_ := b.size_ + 1 } := by
  by_cases hc : b.size_ < b.capacity ∧ gc.assertObject r.value = true
  · rw [push_back_done hc.1 hc.2] at h
    exact ⟨hc.1, hc.2, (Outcome.done.inj h).symm⟩
  · rw [push_back_abort hc] at h
    cases h

/-- Appending a list of valid records that fits: the appends all return, and the records sit
behind the old contents in the order of the list. -/
theorem pushAll_done (gc : GC) : ∀ (rs : List Attr) (b : Bindings),
    b.size_ + rs.length ≤ b.capacity → (∀ r ∈ rs, gc.assertObject r.value = true) →
    ∃ b', pushAll gc b rs = Outcome.done b' ∧ b'.size_ = b.size_ + rs.length ∧
      b'.misc = b.misc ∧ (∀ i, i < b.size_ → b'.attrs i = b.attrs i) ∧
      (∀ i, i < rs.length → some (b'.attrs (b.size_ + i)) = rs.get? i) := by
  intro rs
  induction rs with
  | nil => intro b _ _; exact ⟨b, rfl, rfl, rfl, fun _ _ => rfl, fun i hi => by simp at hi⟩
  | cons r rs ih =>
    intro b hc hv
    simp only [List.length_cons] at hc
    have hlt : b.size_ < b.capacity := by omega
    have hr : gc.assertObject r.value = true := hv r (List.mem_cons_self _ _)
    obtain ⟨b', hb', hsz, hmisc, hold, hnew⟩ :=
      ih { b with attrs := Function.update b.attrs b.size_ r, size_ := b.size_ + 1 }
        (by show b.size_ + 1 + rs.length ≤ u32 b.misc
            have : b.capacity = u32 b.misc := rfl
            omega)
        (fun x hx => hv x (List.mem_cons_of_mem _ hx))
    dsimp only at hsz hmisc hold hnew
    refine ⟨b', ?_, ?_, hmisc, ?_, ?_⟩
    · simp only [pushAll, push_back_done hlt hr]; exact hb'
    · simp only [List.length_cons]; rw [hsz]; omega
    · intro i hi
      rw [hold i (by omega)]
      exact Function.update_noteq (by omega) _ _
    · intro i hi
      cases i with
      | zero =>
        rw [Nat.add_zero, hold b.size_ (by omega)]
        simp
      | succ k =>
        simp only [List.length_cons] at hi
        have := hnew k (by omega)
        simp only [List.get?_cons_succ]
        rw [← this]
        rw [Nat.add_assoc, Nat.add_comm 1 k]

theorem pushAll_new (gc : GC) (capacity : Nat) (mem : Nat → Attr) (rs : List Attr)
    (hk : rs.length ≤ (Bindings.new capacity mem).capacity)
    (hvs : ∀ x ∈ rs, gc.assertObject x.value = true) :
    ∃ b', pushAll gc (Bindings.new capacity mem) rs = Outcome.done b' ∧ b'.size_ = rs.length ∧
      b'.misc = u32 capacity ∧ (∀ i, i < rs.length → some (b'.attrs i) = rs.get? i) := by
  obtain ⟨b', h1, h2, h3, _, h5⟩ :=
    pushAll_done gc rs (Bindings.new capacity mem) (by simpa [Bindings.new] using hk) hvs
  refine ⟨b', h1, by simpa [Bindings.new] using h2, h3, fun i hi => ?_⟩
  simpa [Bindings.new] using h5 i hi

/-- C5: on a container with `size < capacity` and a record `r` whose value passes the validity
check, `push_back(r)` returns, stores `r` in slot `size`, makes the size one larger and leaves
the slots below the old size and the capacity as they were; and appending `rs` to a fresh
container whose capacity is at least the length of `rs` yields size `rs.length` with slot `i`
holding `rs[i]`. -/
theorem push_back_frame (gc : GC) (b : Bindings) (r : Attr) (capacity : Nat) (mem : Nat → Attr)
    (rs : List Attr) (hlt : b.size < b.capacity) (hv : gc.assertObject r.value = true)
    (hk : rs.length ≤ (Bindings.new capacity mem).capacity)
    (hvs : ∀ x ∈ rs, gc.assertObject x.value = true) :
    (∃ b', b.push_back gc r = Outcome.done b' ∧ b'.attrs b.size = r ∧ b'.size = b.size + 1 ∧
        (∀ i, i < b.size → b'.attrs i = b.attrs i) ∧ b'.capacity = b.capacity) ∧
    (∃ b', pushAll gc (Bindings.new capacity mem) rs = Outcome.done b' ∧ b'.size = rs.length ∧
        ∀ i, i < rs.length → some (b'.attrs i) = rs.get? i) := by
  constructor
  · refine ⟨_, push_back_done hlt hv, ?_, rfl, ?_, rfl⟩
    · exact Function.update_same _ _ _
    · intro i hi
      exact Function.update_noteq (Nat.ne_of_lt hi) _ _
  · obtain ⟨b', h1, h2, _, h4⟩ := pushAll_new gc capacity mem rs hk hvs
    exact ⟨b', h1, h2, h4⟩

theorem push_back_frame_witness :
    (oneOfThree.size < oneOfThree.capacity ∧ gcNonNull.assertObject recA.value = true) ∧
    (∃ b', oneOfThree.push_back gcNonNull recA = Outcome.done b' ∧ b'.attrs oneOfThree.size = recA ∧
        b'.size = oneOfThree.size + 1 ∧
        (∀ i, i < oneOfThree.size → b'.attrs i = oneOfThree.attrs i) ∧
        b'.capacity = oneOfThree.capacity) ∧
    (∃ b', pushAll gcNonNull (Bindings.new 3 junk) [recB, recA, recC] = Outcome.done b' ∧
        b'.size = [recB, recA, recC].length ∧
        ∀ i, i < [recB, recA, recC].length → some (b'.attrs i) = [recB, recA, recC].get? i) :=
  ⟨by decide, push_back_frame gcNonNull oneOfThree recA 3 junk [recB, recA, recC]
    (by decide) (by decide) (by decide) (by decide)⟩

/-- C6: `push_back(r)` returns exactly when `size < capacity` and `r.value` passes the validity
check; when `size == capacity`, or when the check fails, it aborts with the object in the state
it had before the call: no slot written, size not incremented. -/
theorem push_back_returns_iff (gc : GC) (b : Bindings) (r : Attr) :
    ((∃ b', b.push_back gc r = Outcome.done b') ↔
        (b.size < b.capacity ∧ gc.assertObject r.value = true)) ∧
    ((b.size = b.capacity ∨ gc.assertObject r.value = false) →
        b.push_back gc r = Outcome.abort b) := by
  constructor
  · constructor
    · rintro ⟨b', h⟩
      exact ⟨(push_back_done_inv h).1, (push_back_done_inv h).2.1⟩
    · rintro ⟨h1, h2⟩
      exact ⟨_, push_back_done h1 h2⟩
  · intro h
    apply push_back_abort
    rintro ⟨h1, h2⟩
    rcases h with h | h
    · have : b.size_ = b.capacity := h
      omega
    · rw [h2] at h
      cases h

theorem push_back_returns_iff_witness :
    fullOfThree.push_back gcNonNull recA = Outcome.abort fullOfThree ∧
    oneOfThree.push_back gcNonNull recNull = Outcome.abort oneOfThree ∧
    ∃ b', oneOfThree.push_back gcNonNull recA = Outcome.done b' :=
  ⟨(push_back_returns_iff gcNonNull fullOfThree recA).2 (Or.inl (by decide)),
   (push_back_returns_iff gcNonNull oneOfThree recNull).2 (Or.inr (by decide)),
   (push_back_returns_iff gcNonNull oneOfThree recA).1.2 ⟨by decide, by decide⟩⟩

/-! ## `need` -/

/-- C7: `need(n, p)` throws exactly when `get(n)` is `nullptr`; the error thrown is built from
the queried name `n` and the position `p` of the caller; and when `get(n)` points to a slot,
`need(n, q)` returns that slot for every position `q`. -/
theorem need_throws_iff (b : Bindings) (n : Symbol) (p : Pos) :
    ((∃ e, b.need n p = Except.error e) ↔ b.get n = none) ∧
    (b.get n = none →
        b.need n p = Except.error ⟨"attribute \x27%s\x27 missing, at %s", n, p⟩) ∧
    (∀ i, b.get n = some i → ∀ q, b.need n q = Except.ok i) := by
  refine ⟨⟨?_, ?_⟩, ?_, ?_⟩
  · rintro ⟨e, he⟩
    unfold need at he
    cases hg : b.get n with
    | none => rfl
    | some a => rw [hg] at he; cases he
  · intro hg
    exact ⟨_, by unfold need; rw [hg]⟩
  · intro hg
    unfold need; rw [hg]
  · intro i hg q
    unfold need; rw [hg]

theorem need_throws_iff_witness :
    fullOfThree.need ⟨15⟩ ⟨77⟩ = Except.error ⟨"attribute \x27%s\x27 missing, at %s", ⟨15⟩, ⟨77⟩⟩ ∧
    (∀ q, fullOfThree.need ⟨20⟩ q = Except.ok 1) ∧ fullOfThree.attrs 1 = recB :=
  ⟨(need_throws_iff fullOfThree ⟨15⟩ ⟨77⟩).2.1 (by decide),
   (need_throws_iff fullOfThree ⟨20⟩ noPos).2.2 1 (by decide), by decide⟩

/-! ## The footprint -/

/-- C8: `wordsFor` is not monotone on `uint32_t`: `2 + 3 * capacity` wraps around between the
capacities 1431655764 and 1431655765, where the footprint reported drops from 4294967294 words
to 1 word. -/
theorem wordsFor_not_monotone :
    (1431655764 : Nat) ≤ 1431655765 ∧ (1431655765 : Nat) < 4294967296 ∧
    wordsFor 1431655764 = 4294967294 ∧ wordsFor 1431655765 = 1 ∧
    ¬ (wordsFor 1431655764 ≤ wordsFor 1431655765) := by
  decide

/-- C9: for the capacity 1431655765, which `uint32_t` represents, `wordsFor` returns 1 and not
the integer `2 + 3 * 1431655765 = 4294967297`: a block of that many words does not even hold
the two-word header. -/
theorem wordsFor_not_exact :
    (1431655765 : Nat) < 4294967296 ∧ wordsFor 1431655765 = 1 ∧
    wordsFor 1431655765 ≠ 2 + 3 * 1431655765 ∧ wordsFor 1431655765 < 2 := by
  decide

/-- C10: `words()` is `wordsFor(capacity())` whatever the size: two containers of the same
capacity report the same `words()`, and `words()` is the same before and after `push_back`,
whether the call returns or aborts. -/
theorem words_eq_wordsFor_capacity (gc : GC) (b c : Bindings) (r : Attr)
    (hcap : b.capacity = c.capacity) :
    b.words = wordsFor b.capacity ∧ b.words = c.words ∧
    (b.push_back gc r).state.words = b.words := by
  refine ⟨rfl, ?_, ?_⟩
  · unfold words; rw [hcap]
  · by_cases h : b.size_ < b.capacity ∧ gc.assertObject r.value = true
    · rw [push_back_done h.1 h.2]; rfl
    · rw [push_back_abort h]; rfl

theorem words_eq_wordsFor_capacity_witness :
    (oneOfThree.capacity = fullOfThree.capacity ∧ oneOfThree.size ≠ fullOfThree.size) ∧
    (oneOfThree.words = wordsFor oneOfThree.capacity ∧ oneOfThree.words = fullOfThree.words ∧
      (oneOfThree.push_back gcNonNull recA).state.words = oneOfThree.words) ∧
    oneOfThree.words = 11 :=
  ⟨by decide, words_eq_wordsFor_capacity gcNonNull oneOfThree fullOfThree recA (by decide),
   by decide⟩

/-! ## The invariant `size ≤ capacity` -/

theorem exec_preserves (gc : GC) (b : Bindings) (op : Op) (h : b.size_ ≤ b.capacity) :
    (op.exec gc b).state.size_ ≤ (op.exec gc b).state.capacity := by
  cases op with
  | push_back attr =>
    show (b.push_back gc attr).state.size_ ≤ (b.push_back gc attr).state.capacity
    by_cases hc : b.size_ < b.capacity ∧ gc.assertObject attr.value = true
    · rw [push_back_done hc.1 hc.2]
      exact hc.1
    · rw [push_back_abort hc]
      exact h
  | sort => exact h
  | find _ => exact h
  | get _ => exact h
  | need _ _ => exact h
  | lexicographicOrder => exact h
  | index _ => exact h
  | words => exact h

theorem reachable_size_le (gc : GC) (b : Bindings) (h : Reachable gc b) :
    b.size_ ≤ b.capacity := by
  induction h with
  | new capacity mem => exact Nat.zero_le _
  | call b b' op _ hstep ih =>
    have := exec_preserves gc b op ih
    rw [hstep] at this
    exact this

/-- C4: a freshly constructed container has size 0; in every state reachable from construction
`0 ≤ size ≤ capacity` holds; and it holds again after any operation (`push_back`, `sort`, `find`,
`get`, `need`, `lexicographicOrder`, `operator[]`, `words`) called in such a state. -/
theorem size_le_capacity (gc : GC) (b : Bindings) (h : Reachable gc b) :
    (∀ capacity mem, (Bindings.new capacity mem).size = 0 ∧
        (Bindings.new capacity mem).size ≤ (Bindings.new capacity mem).capacity) ∧
    (0 ≤ b.size ∧ b.size ≤ b.capacity) ∧
    (∀ op : Op, 0 ≤ (op.exec gc b).state.size ∧
        (op.exec gc b).state.size ≤ (op.exec gc b).state.capacity) :=
  ⟨fun _ _ => ⟨rfl, Nat.zero_le _⟩, ⟨Nat.zero_le _, reachable_size_le gc b h⟩,
   fun op => ⟨Nat.zero_le _, exec_preserves gc b op (reachable_size_le gc b h)⟩⟩

theorem size_le_capacity_witness :
    Reachable gcNonNull oneOfThree ∧ oneOfThree.size = 1 ∧ oneOfThree.capacity = 3 ∧
    (0 ≤ oneOfThree.size ∧ oneOfThree.size ≤ oneOfThree.capacity) :=
  have h : Reachable gcNonNull oneOfThree :=
    Reachable.call (Bindings.new 3 junk) oneOfThree (Op.push_back recB) (Reachable.new 3 junk) rfl
  ⟨h, by decide, by decide, (size_le_capacity gcNonNull oneOfThree h).2.1⟩

/-! ## `std::lower_bound` on a range in name order -/

theorem attr_lt_iff (a c : Attr) : a.lt c = true ↔ a.name.s < c.name.s := by
  simp [Attr.lt, Symbol.lt]

theorem symbol_lt_iff (a c : Symbol) : a.lt c = true ↔ a.s < c.s := by
  simp [Symbol.lt]

theorem symbol_ext {a c : Symbol} (h : a.s = c.s) : a = c := by
  cases a; cases c; cases h; rfl

/-- On a range in non-decreasing name order the loop returns the partition point: every slot in
front of it is less than the key, no slot from it on is. -/
theorem lower_boundLoop_sorted (attrs : Nat → Attr) (key : Attr) :
    ∀ (fuel first len : Nat), len ≤ fuel →
      (∀ i j, first ≤ i → i ≤ j → j < first + len → (attrs i).name.s ≤ (attrs j).name.s) →
      first ≤ lower_boundLoop attrs key fuel first len ∧
      lower_boundLoop attrs key fuel first len ≤ first + len ∧
      (∀ j, first ≤ j → j < lower_boundLoop attrs key fuel first len →
        (attrs j).name.s < key.name.s) ∧
      (∀ j, lower_boundLoop attrs key fuel first len ≤ j → j < first + len →
        key.name.s ≤ (attrs j).name.s) := by
  intro fuel
  induction fuel with
  | zero =>
    intro first len hlen _
    have hl : len = 0 := by omega
    subst hl
    refine ⟨Nat.le_refl _, Nat.le_refl _, ?_, ?_⟩
    · intro j h1 h2; simp only [lower_boundLoop] at h2; omega
    · intro j h1 h2; simp only [lower_boundLoop] at h1; omega
  | succ fuel ih =>
    intro first len hlen hs
    by_cases hl : len = 0
    · subst hl
      simp only [lower_boundLoop, if_true]
      refine ⟨Nat.le_refl _, Nat.le_refl _, ?_, ?_⟩
      · intro j h1 h2; omega
      · intro j h1 h2; omega
    · simp only [lower_boundLoop, if_neg hl]
      have hhalf : len / 2 < len := Nat.div_lt_self (Nat.pos_of_ne_zero hl) (by decide)
      by_cases hm : (attrs (first + len / 2)).lt key = true
      · rw [if_pos hm]
        have hm' := (attr_lt_iff _ _).mp hm
        obtain ⟨h1, h2, h3, h4⟩ := ih (first + len / 2 + 1) (len - len / 2 - 1) (by omega)
          (fun i j hi hij hj => hs i j (by omega) hij (by omega))
        refine ⟨by omega, by omega, ?_, ?_⟩
        · intro j hj1 hj2
          by_cases hjm : j ≤ first + len / 2
          · have := hs j (first + len / 2) hj1 hjm (by omega)
            omega
          · exact h3 j (by omega) hj2
        · intro j hj1 hj2
          exact h4 j hj1 (by omega)
      · rw [if_neg hm]
        have hm' : ¬ (attrs (first + len / 2)).name.s < key.name.s :=
          fun h => hm ((attr_lt_iff _ _).mpr h)
        obtain ⟨h1, h2, h3, h4⟩ := ih first (len / 2) (by omega)
          (fun i j hi hij hj => hs i j hi hij (by omega))
        refine ⟨h1, by omega, h3, ?_⟩
        · intro j hj1 hj2
          by_cases hjm : j < first + len / 2
          · exact h4 j hj1 hjm
          · have := hs (first + len / 2) j (by omega) (by omega) hj2
            omega

/-- Whatever the contents of the range, the loop returns a position of the range or its end. -/
theorem lower_boundLoop_range (attrs : Nat → Attr) (key : Attr) :
    ∀ (fuel first len : Nat),
      first ≤ lower_boundLoop attrs key fuel first len ∧
      lower_boundLoop attrs key fuel first len ≤ first + len := by
  intro fuel
  induction fuel with
  | zero => intro first len; simp only [lower_boundLoop]; omega
  | succ fuel ih =>
    intro first len
    by_cases hl : len = 0
    · simp only [lower_boundLoop, if_pos hl]; omega
    · simp only [lower_boundLoop, if_neg hl]
      have hhalf : len / 2 < len := Nat.div_lt_self (Nat.pos_of_ne_zero hl) (by decide)
      split
      · have := ih (first + len / 2 + 1) (len - len / 2 - 1); omega
      · have := ih first (len / 2); omega

/-- The partition point found by `find` and `get` in a container in name order. -/
theorem lower_bound_sorted (b : Bindings) (key : Attr)
    (hs : ∀ j, j < b.size → ∀ i, i < j → ¬ (b.attrs j).name.lt (b.attrs i).name = true) :
    lower_bound b.attrs b.begin b.end_ key ≤ b.size_ ∧
    (∀ j, j < lower_bound b.attrs b.begin b.end_ key → (b.attrs j).name.s < key.name.s) ∧
    (∀ j, lower_bound b.attrs b.begin b.end_ key ≤ j → j < b.size_ →
        key.name.s ≤ (b.attrs j).name.s) := by
  have hs' : ∀ i j, 0 ≤ i → i ≤ j → j < 0 + (b.size_ - 0) →
      (b.attrs i).name.s ≤ (b.attrs j).name.s := by
    intro i j _ hij hj
    rcases Nat.eq_or_lt_of_le hij with h | h
    · subst h; exact Nat.le_refl _
    · have := hs j (by show j < b.size_; omega) i h
      rw [symbol_lt_iff] at this
      omega
  obtain ⟨_, h2, h3, h4⟩ :=
    lower_boundLoop_sorted b.attrs key (b.size_ - 0) 0 (b.size_ - 0) (Nat.le_refl _) hs'
  refine ⟨by simpa [lower_bound, Bindings.begin, Bindings.end_] using h2, ?_, ?_⟩
  · intro j hj
    exact h3 j (Nat.zero_le _) hj
  · intro j hj1 hj2
    exact h4 j hj1 (by omega)

/-! ## `find` and `get` -/

/-- Binary search on a range in name order finds the first slot with the name, if there is
one. -/
theorem find_get_of_sorted (b : Bindings) (n : Symbol)
    (hs : ∀ j, j < b.size → ∀ i, i < j → ¬ (b.attrs j).name.lt (b.attrs i).name = true) :
    ((∃ i, i < b.size ∧ (b.attrs i).name = n) →
      ∃ k, k < b.size ∧ (b.attrs k).name = n ∧ (∀ j, j < k → (b.attrs j).name ≠ n) ∧
        b.find n = k ∧ b.get n = some k) ∧
    ((¬ ∃ i, i < b.size ∧ (b.attrs i).name = n) → b.find n = b.end_ ∧ b.get n = none) := by
  obtain ⟨h1, h2, h3⟩ := lower_bound_sorted b ⟨n, nullValue, noPos⟩ hs
  constructor
  · rintro ⟨m, hm, hmn⟩
    have hm' : m < b.size_ := hm
    have hrm : lower_bound b.attrs b.begin b.end_ ⟨n, nullValue, noPos⟩ ≤ m := by
      by_contra hc
      have := h2 m (by omega)
      rw [hmn] at this
      exact Nat.lt_irrefl _ this
    have hrs : lower_bound b.attrs b.begin b.end_ ⟨n, nullValue, noPos⟩ < b.size_ := by omega
    have hname : (b.attrs (lower_bound b.attrs b.begin b.end_ ⟨n, nullValue, noPos⟩)).name = n := by
      apply symbol_ext
      have hge := h3 _ (Nat.le_refl _) hrs
      have hle : (b.attrs (lower_bound b.attrs b.begin b.end_ ⟨n, nullValue, noPos⟩)).name.s
          ≤ (b.attrs m).name.s := by
        rcases Nat.eq_or_lt_of_le hrm with h | h
        · rw [← h]
        · have := hs m hm _ h
          rw [symbol_lt_iff] at this
          omega
      rw [hmn] at hle
      exact Nat.le_antisymm hle hge
    have hcond : lower_bound b.attrs b.begin b.end_ ⟨n, nullValue, noPos⟩ ≠ b.end_ ∧
        (b.attrs (lower_bound b.attrs b.begin b.end_ ⟨n, nullValue, noPos⟩)).name = n :=
      ⟨Nat.ne_of_lt hrs, hname⟩
    refine ⟨_, hrs, hname, ?_, ?_, ?_⟩
    · intro j hj hjn
      have := h2 j hj
      rw [hjn] at this
      exact Nat.lt_irrefl _ this
    · simp only [Bindings.find]; rw [if_pos hcond]
    · simp only [Bindings.get]; rw [if_pos hcond]
  · intro hno
    have hcond : ¬ (lower_bound b.attrs b.begin b.end_ ⟨n, nullValue, noPos⟩ ≠ b.end_ ∧
        (b.attrs (lower_bound b.attrs b.begin b.end_ ⟨n, nullValue, noPos⟩)).name = n) := by
      rintro ⟨hne, hname⟩
      exact hno ⟨_, Nat.lt_of_le_of_ne h1 hne, hname⟩
    constructor
    · simp only [Bindings.find]; rw [if_neg hcond]
    · simp only [Bindings.get]; rw [if_neg hcond]

/-- C2: in a container whose slots `[0, size)` are in non-decreasing name order, when some slot
holds the name `n`, `find(n)` and `get(n)` both designate the slot of lowest index whose name is
`n`; when no slot holds `n`, `find(n)` is `end()` and `get(n)` is `nullptr`. -/
theorem find_get_lowest (b : Bindings) (n : Symbol)
    (hs : ∀ j, j < b.size → ∀ i, i < j → ¬ (b.attrs j).name.lt (b.attrs i).name = true) :
    ((∃ i, i < b.size ∧ (b.attrs i).name = n) →
      ∃ k, k < b.size ∧ (b.attrs k).name = n ∧ (∀ j, j < k → (b.attrs j).name ≠ n) ∧
        b.find n = k ∧ b.get n = some k) ∧
    ((¬ ∃ i, i < b.size ∧ (b.attrs i).name = n) → b.find n = b.end_ ∧ b.get n = none) :=
  find_get_of_sorted b n hs

theorem find_get_lowest_witness :
    (∀ j, j < withDuplicates.size → ∀ i, i < j →
      ¬ (withDuplicates.attrs j).name.lt (withDuplicates.attrs i).name = true) ∧
    (∃ k, k < withDuplicates.size ∧ (withDuplicates.attrs k).name = ⟨20⟩ ∧
        (∀ j, j < k → (withDuplicates.attrs j).name ≠ ⟨20⟩) ∧
        withDuplicates.find ⟨20⟩ = k ∧ withDuplicates.get ⟨20⟩ = some k) ∧
    (withDuplicates.find ⟨25⟩ = withDuplicates.end_ ∧ withDuplicates.get ⟨25⟩ = none) ∧
    withDuplicates.get ⟨20⟩ = some 1 :=
  ⟨by decide,
   (find_get_lowest withDuplicates ⟨20⟩ (by decide)).1 ⟨3, by decide, by decide⟩,
   (find_get_lowest withDuplicates ⟨25⟩ (by decide)).2 (by decide),
   by decide⟩

/-! ## The sorting procedure `stdSort`: what the contract of `std::sort` promises -/

theorem stdSortInsert_perm {α : Type} (less : α → α → Bool) (a : α) :
    ∀ l : List α, (stdSortInsert less a l).Perm (a :: l) := by
  intro l
  induction l with
  | nil => exact List.Perm.refl _
  | cons c l ih =>
    simp only [stdSortInsert]
    split
    · exact ((List.Perm.cons c ih).trans (List.Perm.swap a c l))
    · exact List.Perm.refl _

theorem stdSort_perm {α : Type} (less : α → α → Bool) :
    ∀ l : List α, (stdSort less l).Perm l := by
  intro l
  induction l with
  | nil => exact List.Perm.refl _
  | cons a l ih =>
    simp only [stdSort]
    exact (stdSortInsert_perm less a _).trans (List.Perm.cons a ih)

theorem stdSort_length {α : Type} (less : α → α → Bool) (l : List α) :
    (stdSort less l).length = l.length :=
  (stdSort_perm less l).length_eq

/-- Insertion keeps a sequence ordered, for a comparison that is asymmetric and whose negation
is transitive (a strict weak order). -/
theorem stdSortInsert_pairwise {α : Type} (less : α → α → Bool)
    (hasym : ∀ x y, less x y = true → ¬ less y x = true)
    (htrans : ∀ x y z, ¬ less y x = true → ¬ less z y = true → ¬ less z x = true) (a : α) :
    ∀ l : List α, l.Pairwise (fun x y => ¬ less y x = true) →
      (stdSortInsert less a l).Pairwise (fun x y => ¬ less y x = true) := by
  intro l
  induction l with
  | nil => intro _; simp [stdSortInsert]
  | cons c l ih =>
    intro hp
    rw [List.pairwise_cons] at hp
    simp only [stdSortInsert]
    split
    · rename_i hca
      rw [List.pairwise_cons]
      refine ⟨?_, ih hp.2⟩
      intro y hy
      rcases List.mem_cons.mp ((stdSortInsert_perm less a l).mem_iff.mp hy) with h | h
      · rw [h]; exact hasym c a hca
      · exact hp.1 y h
    · rename_i hca
      rw [List.pairwise_cons]
      refine ⟨?_, List.pairwise_cons.mpr hp⟩
      intro y hy
      rcases List.mem_cons.mp hy with h | h
      · rw [h]; exact hca
      · exact htrans a c y hca (hp.1 y h)

theorem stdSort_pairwise {α : Type} (less : α → α → Bool)
    (hasym : ∀ x y, less x y = true → ¬ less y x = true)
    (htrans : ∀ x y z, ¬ less y x = true → ¬ less z y = true → ¬ less z x = true) :
    ∀ l : List α, (stdSort less l).Pairwise (fun x y => ¬ less y x = true) := by
  intro l
  induction l with
  | nil => simp [stdSort]
  | cons a l ih =>
    simp only [stdSort]
    exact stdSortInsert_pairwise less hasym htrans a _ ih

theorem stdSort_attr_pairwise (l : List Attr) :
    (stdSort Attr.lt l).Pairwise (fun x y => ¬ y.lt x = true) := by
  apply stdSort_pairwise
  · intro x y h
    rw [attr_lt_iff] at *
    omega
  · intro x y z h1 h2
    rw [attr_lt_iff] at *
    omega

/-! ## `sort` -/

theorem slots_length (b : Bindings) : b.slots.length = b.size_ := by
  simp [slots]

theorem slots_getElem? (b : Bindings) (i : Nat) (h : i < b.size_) :
    b.slots[i]? = some (b.attrs i) := by
  simp [slots, h]

theorem mem_slots {b : Bindings} {a : Attr} : a ∈ b.slots ↔ ∃ i, i < b.size_ ∧ b.attrs i = a := by
  simp [slots]

theorem sort_attrs_getElem? (b : Bindings) (i : Nat) (h : i < b.size_) :
    (stdSort Attr.lt b.slots)[i]? = some (b.sort.attrs i) := by
  have hl : i < (stdSort Attr.lt b.slots).length := by
    rw [stdSort_length, slots_length]; exact h
  show _ = some ((stdSort Attr.lt b.slots).getD i (b.attrs i))
  rw [List.getD_eq_getElem _ _ hl, List.getElem?_eq_getElem hl]

theorem slots_sort (b : Bindings) : b.sort.slots = stdSort Attr.lt b.slots := by
  apply List.ext_getElem?
  intro i
  by_cases h : i < b.size_
  · rw [sort_attrs_getElem? b i h]
    exact slots_getElem? b.sort i h
  · have h1 : b.sort.slots.length ≤ i := by
      rw [slots_length]; show b.size_ ≤ i; omega
    have h2 : (stdSort Attr.lt b.slots).length ≤ i := by
      rw [stdSort_length, slots_length]; omega
    rw [List.getElem?_eq_none h1, List.getElem?_eq_none h2]

theorem slots_pairwise_iff (b : Bindings) (R : Attr → Attr → Prop) :
    b.slots.Pairwise R ↔ ∀ j, j < b.size_ → ∀ i, i < j → R (b.attrs i) (b.attrs j) := by
  rw [List.pairwise_iff_getElem]
  constructor
  · intro h j hj i hij
    have hi' : i < b.slots.length := by rw [slots_length]; omega
    have hj' : j < b.slots.length := by rw [slots_length]; omega
    have := h i j hi' hj' hij
    simpa [slots] using this
  · intro h i j hi hj hij
    have := h j (by rw [slots_length] at hj; exact hj) i hij
    simpa [slots] using this

/-- C3: after `sort()`, for all `i < j < size` the name in slot `i` is less than or equal to
the name in slot `j` in the order of `Attr::operator<`: slot `j` is not less than slot `i`, and
the name of slot `i` is less than that of slot `j` or the same. -/
theorem sort_nondecreasing (b : Bindings) (i j : Nat) (hij : i < j) (hj : j < b.sort.size) :
    ¬ (b.sort.attrs j).lt (b.sort.attrs i) = true ∧
    ((b.sort.attrs i).name.lt (b.sort.attrs j).name = true ∨
      (b.sort.attrs i).name = (b.sort.attrs j).name) := by
  have hp : b.sort.slots.Pairwise (fun x y => ¬ y.lt x = true) := by
    rw [slots_sort]; exact stdSort_attr_pairwise _
  have h := (slots_pairwise_iff b.sort _).mp hp j hj i hij
  refine ⟨h, ?_⟩
  rw [attr_lt_iff] at h
  rw [symbol_lt_iff]
  rcases Nat.lt_or_ge (b.sort.attrs i).name.s (b.sort.attrs j).name.s with h' | h'
  · exact Or.inl h'
  · exact Or.inr (symbol_ext (by omega))

theorem sort_nondecreasing_witness :
    ((0 : Nat) < 2 ∧ 2 < unsortedThree.sort.size) ∧
    (¬ (unsortedThree.sort.attrs 2).lt (unsortedThree.sort.attrs 0) = true ∧
      ((unsortedThree.sort.attrs 0).name.lt (unsortedThree.sort.attrs 2).name = true ∨
        (unsortedThree.sort.attrs 0).name = (unsortedThree.sort.attrs 2).name)) ∧
    unsortedThree.sort.attrs 0 = recC ∧ unsortedThree.sort.attrs 1 = recB ∧
    unsortedThree.sort.attrs 2 = recA :=
  ⟨by decide, sort_nondecreasing unsortedThree 0 2 (by decide) (by decide),
   by decide, by decide, by decide⟩

/-! ## Round trip: append, seal, look up -/

theorem slots_of_attrs (b : Bindings) (rs : List Attr) (hsz : b.size_ = rs.length)
    (h : ∀ i, i < rs.length → some (b.attrs i) = rs.get? i) : b.slots = rs := by
  apply List.ext_getElem?
  intro i
  by_cases hi : i < rs.length
  · rw [slots_getElem? b i (by omega), h i hi, List.get?_eq_getElem?]
  · rw [List.getElem?_eq_none (by rw [slots_length]; omega), List.getElem?_eq_none (by omega)]

theorem sort_size (b : Bindings) : b.sort.size_ = b.size_ := rfl

/-- The lookup on a sealed container whose records have pairwise distinct names. -/
theorem get_sort_of_nodup (b : Bindings) (l : List Attr) (hperm : b.slots.Perm l)
    (hd : (l.map Attr.name).Nodup) :
    (∀ r ∈ l, ∃ i, b.sort.get r.name = some i ∧ b.sort.attrs i = r) ∧
    (∀ n, n ∉ l.map Attr.name → b.sort.get n = none) := by
  have hperm' : b.sort.slots.Perm l := by
    rw [slots_sort]; exact (stdSort_perm _ _).trans hperm
  have hp : b.sort.slots.Pairwise (fun x y => ¬ y.lt x = true) := by
    rw [slots_sort]; exact stdSort_attr_pairwise _
  have hs : ∀ j, j < b.sort.size → ∀ i, i < j →
      ¬ (b.sort.attrs j).name.lt (b.sort.attrs i).name = true :=
    fun j hj i hij => (slots_pairwise_iff b.sort _).mp hp j hj i hij
  constructor
  · intro r hr
    obtain ⟨m, hm, hmr⟩ := mem_slots.mp (hperm'.mem_iff.mpr hr)
    obtain ⟨k, hk, hkn, _, _, hget⟩ :=
      (find_get_of_sorted b.sort r.name hs).1 ⟨m, hm, by rw [hmr]⟩
    refine ⟨k, hget, ?_⟩
    have hkl : b.sort.attrs k ∈ l := hperm'.mem_iff.mp (mem_slots.mpr ⟨k, hk, rfl⟩)
    exact List.inj_on_of_nodup_map hd hkl hr hkn
  · intro n hn
    refine ((find_get_of_sorted b.sort n hs).2 ?_).2
    rintro ⟨i, hi, hin⟩
    apply hn
    have hil : b.sort.attrs i ∈ l := hperm'.mem_iff.mp (mem_slots.mpr ⟨i, hi, rfl⟩)
    exact List.mem_map.mpr ⟨_, hil, hin⟩

/-- C1: let `l` be a list of records with pairwise distinct names and valid values, appended with
`push_back` in the order of any permutation `p` of `l` to a fresh container whose capacity is at
least the length of `l`; the appends all return, and after `sort()`, `get(name)` points to a slot
holding exactly the record of `l` with that name, for every record of `l`, and is `nullptr` for
every name that no record of `l` has. -/
theorem get_roundtrip (gc : GC) (capacity : Nat) (mem : Nat → Attr) (l p : List Attr)
    (hd : (l.map Attr.name).Nodup) (hp : p.Perm l)
    (hc : l.length ≤ (Bindings.new capacity mem).capacity)
    (hv : ∀ r ∈ l, gc.assertObject r.value = true) :
    ∃ b, pushAll gc (Bindings.new capacity mem) p = Outcome.done b ∧
      (∀ r ∈ l, ∃ i, b.sort.get r.name = some i ∧ b.sort.attrs i = r) ∧
      (∀ n, n ∉ l.map Attr.name → b.sort.get n = none) := by
  obtain ⟨b, hb, hsz, _, hat⟩ := pushAll_new gc capacity mem p
    (by rw [hp.length_eq]; exact hc) (fun x hx => hv x (hp.mem_iff.mp hx))
  have hslots : b.slots = p := slots_of_attrs b p hsz hat
  exact ⟨b, hb, get_sort_of_nodup b l (by rw [hslots]; exact hp) hd⟩

theorem get_roundtrip_witness :
    (([recA, recB, recC].map Attr.name).Nodup ∧ [recB, recC, recA].Perm [recA, recB, recC] ∧
      [recA, recB, recC].length ≤ (Bindings.new 4 junk).capacity ∧
      ∀ r ∈ [recA, recB, recC], gcNonNull.assertObject r.value = true) ∧
    ∃ b, pushAll gcNonNull (Bindings.new 4 junk) [recB, recC, recA] = Outcome.done b ∧
      (∀ r ∈ [recA, recB, recC], ∃ i, b.sort.get r.name = some i ∧ b.sort.attrs i = r) ∧
      (∀ n, n ∉ [recA, recB, recC].map Attr.name → b.sort.get n = none) :=
  ⟨⟨by decide, by decide, by decide, by decide⟩,
   get_roundtrip gcNonNull 4 junk [recA, recB, recC] [recB, recC, recA]
    (by decide) (by decide) (by decide) (by decide)⟩

/-! ## Lookups that need no order -/

theorem lower_bound_le_size (b : Bindings) (key : Attr) :
    lower_bound b.attrs b.begin b.end_ key ≤ b.size_ := by
  have := (lower_boundLoop_range b.attrs key (b.size_ - 0) 0 (b.size_ - 0)).2
  simpa [lower_bound, Bindings.begin, Bindings.end_] using this

theorem get_eq_some_iff (b : Bindings) (n : Symbol) (i : Nat) :
    b.get n = some i ↔
      (i = lower_bound b.attrs b.begin b.end_ ⟨n, nullValue, noPos⟩ ∧ i ≠ b.end_ ∧
        (b.attrs i).name = n) := by
  simp only [Bindings.get]
  split
  · rename_i h
    constructor
    · intro hi
      have := Option.some.inj hi
      subst this
      exact ⟨rfl, h⟩
    · rintro ⟨hi, _⟩
      rw [hi]
  · rename_i h
    constructor
    · intro hi; cases hi
    · rintro ⟨hi, h2⟩
      subst hi
      exact absurd h2 h

theorem find_eq_of_get_some {b : Bindings} {n : Symbol} {i : Nat} (h : b.get n = some i) :
    b.find n = i := by
  obtain ⟨hi, h2⟩ := (get_eq_some_iff b n i).mp h
  subst hi
  simp only [Bindings.find]
  rw [if_pos h2]

theorem get_eq_none_iff (b : Bindings) (n : Symbol) :
    b.get n = none ↔
      ¬ (lower_bound b.attrs b.begin b.end_ ⟨n, nullValue, noPos⟩ ≠ b.end_ ∧
        (b.attrs (lower_bound b.attrs b.begin b.end_ ⟨n, nullValue, noPos⟩)).name = n) := by
  simp only [Bindings.get]
  split
  · rename_i h
    exact ⟨fun hi => (by cases hi), fun hn => absurd h hn⟩
  · rename_i h
    exact ⟨fun _ => h, fun _ => rfl⟩

theorem find_eq_end_iff (b : Bindings) (n : Symbol) :
    b.find n = b.end_ ↔
      ¬ (lower_bound b.attrs b.begin b.end_ ⟨n, nullValue, noPos⟩ ≠ b.end_ ∧
        (b.attrs (lower_bound b.attrs b.begin b.end_ ⟨n, nullValue, noPos⟩)).name = n) := by
  simp only [Bindings.find]
  split
  · rename_i h
    exact ⟨fun hi => absurd hi h.1, fun hn => absurd h hn⟩
  · rename_i h
    exact ⟨fun _ => h, fun _ => rfl⟩

theorem get_some_lt {b : Bindings} {n : Symbol} {i : Nat} (h : b.get n = some i) :
    i < b.size_ ∧ (b.attrs i).name = n := by
  obtain ⟨hi, hne, hname⟩ := (get_eq_some_iff b n i).mp h
  have hle := lower_bound_le_size b ⟨n, nullValue, noPos⟩
  rw [← hi] at hle
  exact ⟨Nat.lt_of_le_of_ne hle hne, hname⟩

/-- C19: whatever the order of the slots and whatever names repeat, when `get(n)` is not
`nullptr` the slot it points to has an index below `size` and holds the name `n`. -/
theorem get_sound (b : Bindings) (n : Symbol) (i : Nat) (h : b.get n = some i) :
    i < b.size ∧ (b.attrs i).name = n :=
  get_some_lt h

theorem get_sound_witness :
    unsortedDup.get ⟨20⟩ = some 2 ∧
    (2 < unsortedDup.size ∧ (unsortedDup.attrs 2).name = ⟨20⟩) ∧
    (∃ i j, i < j ∧ j < unsortedDup.size ∧
      (unsortedDup.attrs j).name.lt (unsortedDup.attrs i).name = true) :=
  ⟨by decide, get_sound unsortedDup ⟨20⟩ 2 (by decide), ⟨0, 1, by decide, by decide, by decide⟩⟩

/-- C20: `find(n)` is `end()` exactly when `get(n)` is `nullptr`, and when `get(n)` points to a
slot, `find(n)` points to the same slot; the slots need not be in order. -/
theorem find_get_same (b : Bindings) (n : Symbol) :
    (b.find n = b.end_ ↔ b.get n = none) ∧
    (∀ i, b.get n = some i → b.find n = i) ∧
    (b.find n ≠ b.end_ → b.get n = some (b.find n)) := by
  have hiff : b.find n = b.end_ ↔ b.get n = none :=
    (find_eq_end_iff b n).trans (get_eq_none_iff b n).symm
  refine ⟨hiff, fun i h => find_eq_of_get_some h, ?_⟩
  intro hne
  cases hg : b.get n with
  | none => exact absurd (hiff.mpr hg) hne
  | some i => rw [find_eq_of_get_some hg]

theorem find_get_same_witness :
    (unsortedDup.get ⟨20⟩ = some 2 ∧ unsortedDup.find ⟨20⟩ = 2) ∧
    (unsortedThree.get ⟨30⟩ = none ∧ unsortedThree.find ⟨30⟩ = unsortedThree.end_) :=
  ⟨⟨by decide, (find_get_same unsortedDup ⟨20⟩).2.1 2 (by decide)⟩,
   ⟨by decide, (find_get_same unsortedThree ⟨30⟩).1.mpr (by decide)⟩⟩

/-- C18: there is a container whose slots `[0, size)` are not in name order and a name held by
one of these slots for which `get` returns `nullptr` and `find` returns `end()`: both calls
return a result as for a name that is absent, and no error is raised. -/
theorem get_misses_unsorted :
    ∃ (b : Bindings) (n : Symbol),
      (∃ i j, i < j ∧ j < b.size ∧ (b.attrs j).name.lt (b.attrs i).name = true) ∧
      (∃ i, i < b.size ∧ (b.attrs i).name = n) ∧
      b.get n = none ∧ b.find n = b.end_ :=
  ⟨unsortedThree, ⟨30⟩, ⟨0, 1, by decide, by decide, by decide⟩, ⟨0, by decide, by decide⟩,
    by decide, by decide⟩

/-! ## The empty container -/

/-- C14: a container constructed with capacity 0 has `size() == 0` and `empty() == true`; for
every name, `find` returns `end()`, `get` returns `nullptr` and `need` throws; and for every
container `empty()` is true exactly when `size() == 0`. -/
theorem empty_boundary (mem : Nat → Attr) (n : Symbol) (p : Pos) (b : Bindings) :
    (Bindings.new 0 mem).size = 0 ∧ (Bindings.new 0 mem).empty = true ∧
    (Bindings.new 0 mem).find n = (Bindings.new 0 mem).end_ ∧
    (Bindings.new 0 mem).get n = none ∧
    (∃ e, (Bindings.new 0 mem).need n p = Except.error e) ∧
    (b.empty = true ↔ b.size = 0) := by
  refine ⟨rfl, rfl, rfl, rfl, ⟨_, rfl⟩, ?_⟩
  simp [Bindings.empty, Bindings.size]

theorem empty_boundary_witness :
    (Bindings.new 0 junk).capacity = 0 ∧ (Bindings.new 0 junk).get ⟨999⟩ = none ∧
    (oneOfThree.empty = true ↔ oneOfThree.size = 0) ∧ oneOfThree.empty = false :=
  ⟨by decide, (empty_boundary junk ⟨999⟩ noPos oneOfThree).2.2.2.1,
   (empty_boundary junk ⟨999⟩ noPos oneOfThree).2.2.2.2.2, by decide⟩

/-! ## The order of records -/

/-- C15: `Attr::operator<` depends on the names only: `a < b` is `a.name < b.name` whatever the
values and positions; two records with the same name satisfy neither `a < b` nor `b < a`; and
over any order of `Symbol` that is a strict total order the comparison is a strict weak order:
irreflexive, transitive, and with a transitive incomparability. -/
theorem attr_lt_name_only (symLt : Symbol → Symbol → Bool)
    (hirr : ∀ x, ¬ symLt x x = true)
    (htr : ∀ x y z, symLt x y = true → symLt y z = true → symLt x z = true)
    (htot : ∀ x y, symLt x y = true ∨ x = y ∨ symLt y x = true) :
    (∀ a b : Attr, a.lt b = a.name.lt b.name ∧ Attr.ltBy symLt a b = symLt a.name b.name) ∧
    (∀ (n m : Symbol) (v v' w w' : ValueRef) (p p' q q' : Pos),
        (Attr.mk n v p).lt (Attr.mk m w q) = (Attr.mk n v' p').lt (Attr.mk m w' q') ∧
        Attr.ltBy symLt ⟨n, v, p⟩ ⟨m, w, q⟩ = Attr.ltBy symLt ⟨n, v', p'⟩ ⟨m, w', q'⟩) ∧
    (∀ a b : Attr, a.name = b.name →
        (¬ a.lt b = true ∧ ¬ b.lt a = true) ∧
        (¬ Attr.ltBy symLt a b = true ∧ ¬ Attr.ltBy symLt b a = true)) ∧
    ((∀ a, ¬ Attr.ltBy symLt a a = true) ∧
      (∀ a b c, Attr.ltBy symLt a b = true → Attr.ltBy symLt b c = true →
        Attr.ltBy symLt a c = true) ∧
      (∀ a b c, (¬ Attr.ltBy symLt a b = true ∧ ¬ Attr.ltBy symLt b a = true) →
        (¬ Attr.ltBy symLt b c = true ∧ ¬ Attr.ltBy symLt c b = true) →
        (¬ Attr.ltBy symLt a c = true ∧ ¬ Attr.ltBy symLt c a = true))) := by
  refine ⟨fun a b => ⟨rfl, rfl⟩, fun _ _ _ _ _ _ _ _ _ _ => ⟨rfl, rfl⟩, ?_, ?_, ?_, ?_⟩
  · intro a b hab
    refine ⟨⟨?_, ?_⟩, ⟨?_, ?_⟩⟩
    · rw [attr_lt_iff, hab]; exact Nat.lt_irrefl _
    · rw [attr_lt_iff, hab]; exact Nat.lt_irrefl _
    · show ¬ symLt a.name b.name = true
      rw [hab]; exact hirr _
    · show ¬ symLt b.name a.name = true
      rw [hab]; exact hirr _
  · intro a
    exact hirr a.name
  · intro a b c h1 h2
    exact htr a.name b.name c.name h1 h2
  · intro a b c hab hbc
    have e1 : a.name = b.name := by
      rcases htot a.name b.name with h | h | h
      · exact absurd h hab.1
      · exact h
      · exact absurd h hab.2
    have e2 : b.name = c.name := by
      rcases htot b.name c.name with h | h | h
      · exact absurd h hbc.1
      · exact h
      · exact absurd h hbc.2
    constructor
    · show ¬ symLt a.name c.name = true
      rw [e1, e2]; exact hirr _
    · show ¬ symLt c.name a.name = true
      rw [e1, e2]; exact hirr _

theorem attr_lt_name_only_witness :
    (∀ a b : Attr, Attr.ltBy Symbol.lt a b = a.lt b) ∧
    ((∀ a, ¬ Attr.ltBy Symbol.lt a a = true) ∧
      (∀ a b c, Attr.ltBy Symbol.lt a b = true → Attr.ltBy Symbol.lt b c = true →
        Attr.ltBy Symbol.lt a c = true) ∧
      (∀ a b c, (¬ Attr.ltBy Symbol.lt a b = true ∧ ¬ Attr.ltBy Symbol.lt b a = true) →
        (¬ Attr.ltBy Symbol.lt b c = true ∧ ¬ Attr.ltBy Symbol.lt c b = true) →
        (¬ Attr.ltBy Symbol.lt a c = true ∧ ¬ Attr.ltBy Symbol.lt c a = true))) ∧
    (¬ (Attr.mk ⟨20⟩ ⟨101⟩ ⟨7⟩).lt (Attr.mk ⟨20⟩ ⟨104⟩ noPos) = true ∧
      ¬ (Attr.mk ⟨20⟩ ⟨104⟩ noPos).lt (Attr.mk ⟨20⟩ ⟨101⟩ ⟨7⟩) = true) :=
  ⟨fun _ _ => rfl,
   (attr_lt_name_only Symbol.lt
      (fun x => by rw [symbol_lt_iff]; exact Nat.lt_irrefl _)
      (fun x y z => by rw [symbol_lt_iff, symbol_lt_iff, symbol_lt_iff]; exact Nat.lt_trans)
      (fun x y => by
        rw [symbol_lt_iff, symbol_lt_iff]
        rcases Nat.lt_trichotomy x.s y.s with h | h | h
        · exact Or.inl h
        · exact Or.inr (Or.inl (symbol_ext h))
        · exact Or.inr (Or.inr h))).2.2.2,
   by decide⟩

/-! ## Sealing twice -/

theorem sort_eq_sortWith (b : Bindings) : b.sort = b.sortWith (stdSort Attr.lt) := rfl

/-- The loop reads slots of its range only. -/
theorem lower_boundLoop_congr (attrs attrs' : Nat → Attr) (key : Attr) :
    ∀ (fuel first len : Nat), (∀ i, first ≤ i → i < first + len → attrs i = attrs' i) →
      lower_boundLoop attrs key fuel first len = lower_boundLoop attrs' key fuel first len := by
  intro fuel
  induction fuel with
  | zero => intro first len _; rfl
  | succ fuel ih =>
    intro first len h
    by_cases hl : len = 0
    · simp only [lower_boundLoop, if_pos hl]
    · simp only [lower_boundLoop, if_neg hl]
      have hhalf : len / 2 < len := Nat.div_lt_self (Nat.pos_of_ne_zero hl) (by decide)
      rw [h (first + len / 2) (by omega) (by omega)]
      rw [ih (first + len / 2 + 1) (len - len / 2 - 1) (fun i h1 h2 => h i (by omega) (by omega)),
        ih first (len / 2) (fun i h1 h2 => h i h1 (by omega))]

theorem stdSortInsert_congr {α : Type} (less less' : α → α → Bool) (a : α) :
    ∀ l : List α, (∀ y ∈ l, less y a = less' y a) →
      stdSortInsert less a l = stdSortInsert less' a l := by
  intro l
  induction l with
  | nil => intro _; rfl
  | cons c l ih =>
    intro h
    simp only [stdSortInsert]
    rw [h c (List.mem_cons_self _ _), ih (fun y hy => h y (List.mem_cons_of_mem _ hy))]

/-- The sort calls the comparison on elements of the range only. -/
theorem stdSort_congr {α : Type} (less less' : α → α → Bool) :
    ∀ l : List α, (∀ x ∈ l, ∀ y ∈ l, less x y = less' x y) →
      stdSort less l = stdSort less' l := by
  intro l
  induction l with
  | nil => intro _; rfl
  | cons a l ih =>
    intro h
    simp only [stdSort]
    rw [ih (fun x hx y hy => h x (List.mem_cons_of_mem _ hx) y (List.mem_cons_of_mem _ hy))]
    apply stdSortInsert_congr
    intro y hy
    exact h y (List.mem_cons_of_mem _ ((stdSort_perm less' l).mem_iff.mp hy)) a
      (List.mem_cons_self _ _)

theorem lower_bound_congr (b c : Bindings) (key : Attr) (hsize : b.size_ = c.size_)
    (hsame : ∀ i, i < b.size_ → b.attrs i = c.attrs i) :
    lower_bound b.attrs b.begin b.end_ key = lower_bound c.attrs c.begin c.end_ key := by
  show lower_boundLoop b.attrs key (b.size_ - 0) 0 (b.size_ - 0) =
    lower_boundLoop c.attrs key (c.size_ - 0) 0 (c.size_ - 0)
  rw [← hsize]
  exact lower_boundLoop_congr _ _ key _ _ _ (fun i _ hi => hsame i (by omega))

theorem get_congr (b c : Bindings) (n : Symbol) (hsize : b.size_ = c.size_)
    (hsame : ∀ i, i < b.size_ → b.attrs i = c.attrs i) : b.get n = c.get n := by
  have hlb := lower_bound_congr b c ⟨n, nullValue, noPos⟩ hsize hsame
  have hle := lower_bound_le_size b ⟨n, nullValue, noPos⟩
  have hend : b.end_ = c.end_ := hsize
  by_cases hcond : lower_bound b.attrs b.begin b.end_ ⟨n, nullValue, noPos⟩ ≠ b.end_ ∧
      (b.attrs (lower_bound b.attrs b.begin b.end_ ⟨n, nullValue, noPos⟩)).name = n
  · have hlt : lower_bound b.attrs b.begin b.end_ ⟨n, nullValue, noPos⟩ < b.size_ :=
      Nat.lt_of_le_of_ne hle hcond.1
    have hb : b.get n = some (lower_bound b.attrs b.begin b.end_ ⟨n, nullValue, noPos⟩) :=
      (get_eq_some_iff b n _).mpr ⟨rfl, hcond⟩
    have hc : c.get n = some (lower_bound b.attrs b.begin b.end_ ⟨n, nullValue, noPos⟩) :=
      (get_eq_some_iff c n _).mpr
        ⟨hlb, by rw [← hend]; exact hcond.1, by rw [← hsame _ hlt]; exact hcond.2⟩
    rw [hb, hc]
  · have hb : b.get n = none := (get_eq_none_iff b n).mpr hcond
    have hc : c.get n = none := by
      apply (get_eq_none_iff c n).mpr
      rw [← hlb, ← hend]
      rintro ⟨h1, h2⟩
      apply hcond
      refine ⟨h1, ?_⟩
      rw [hsame _ (Nat.lt_of_le_of_ne hle h1)]
      exact h2
    rw [hb, hc]

theorem find_congr (b c : Bindings) (n : Symbol) (hsize : b.size_ = c.size_)
    (hsame : ∀ i, i < b.size_ → b.attrs i = c.attrs i) : b.find n = c.find n := by
  have hg := get_congr b c n hsize hsame
  cases hb : b.get n with
  | none =>
    rw [hb] at hg
    rw [(find_eq_end_iff b n).mpr ((get_eq_none_iff b n).mp hb),
      (find_eq_end_iff c n).mpr ((get_eq_none_iff c n).mp hg.symm)]
    exact hsize
  | some i =>
    rw [hb] at hg
    rw [find_eq_of_get_some hb, find_eq_of_get_some hg.symm]

theorem lexicographicOrder_congr (text : Symbol → String) (b c : Bindings)
    (hsize : b.size_ = c.size_) (hsame : ∀ i, i < b.size_ → b.attrs i = c.attrs i) :
    b.lexicographicOrder text = c.lexicographicOrder text := by
  unfold Bindings.lexicographicOrder
  rw [← hsize]
  apply stdSort_congr
  intro x hx y hy
  rw [hsame x (List.mem_range.mp hx), hsame y (List.mem_range.mp hy)]

/-- C16: two containers of the same size whose slots `[0, size)` hold the same records, with
anything at all in the slots from `size` on, give the same results for `find`, `get`, `need` and
`lexicographicOrder`; and the range `[begin(), end())` is exactly the slots of index below
`size`. -/
theorem lookups_ignore_tail (b c : Bindings) (hsize : b.size = c.size)
    (hsame : ∀ i, i < b.size → b.attrs i = c.attrs i) :
    (∀ n, b.find n = c.find n ∧ b.get n = c.get n ∧ ∀ p, b.need n p = c.need n p) ∧
    (∀ text, b.lexicographicOrder text = c.lexicographicOrder text ∧
      b.lexicographicRecords text = c.lexicographicRecords text) ∧
    (∀ i, (b.begin ≤ i ∧ i < b.end_) ↔ i < b.size) := by
  refine ⟨fun n => ⟨find_congr b c n hsize hsame, get_congr b c n hsize hsame, fun p => ?_⟩,
    fun text => ⟨lexicographicOrder_congr text b c hsize hsame, ?_⟩, fun i => ?_⟩
  · unfold Bindings.need
    rw [get_congr b c n hsize hsame]
  · unfold Bindings.lexicographicRecords
    rw [← lexicographicOrder_congr text b c hsize hsame]
    apply List.map_congr_left
    intro i hi
    have hi' : i < b.size_ :=
      List.mem_range.mp ((stdSort_perm _ _).mem_iff.mp hi)
    rw [hsame i hi']
  · exact ⟨fun h => h.2, fun h => ⟨Nat.zero_le _, h⟩⟩

theorem lookups_ignore_tail_witness :
    (oneOfThree.size = oneOfThreeOther.size ∧
      (∀ i, i < oneOfThree.size → oneOfThree.attrs i = oneOfThreeOther.attrs i) ∧
      oneOfThree.attrs 1 ≠ oneOfThreeOther.attrs 1) ∧
    ((∀ n, oneOfThree.find n = oneOfThreeOther.find n ∧
        oneOfThree.get n = oneOfThreeOther.get n ∧
        ∀ p, oneOfThree.need n p = oneOfThreeOther.need n p) ∧
      (∀ text, oneOfThree.lexicographicOrder text = oneOfThreeOther.lexicographicOrder text ∧
        oneOfThree.lexicographicRecords text = oneOfThreeOther.lexicographicRecords text) ∧
      (∀ i, (oneOfThree.begin ≤ i ∧ i < oneOfThree.end_) ↔ i < oneOfThree.size)) :=
  ⟨⟨by decide, by decide, by decide⟩,
   lookups_ignore_tail oneOfThree oneOfThreeOther (by decide) (by decide)⟩

/-! ## `lexicographicOrder` -/

theorem string_lt_asymm (s t : String) (h : s < t) : ¬ t < s := lt_asymm h

theorem string_not_lt_trans (s t u : String) (h1 : ¬ t < s) (h2 : ¬ u < t) : ¬ u < s := by
  rw [not_lt] at *
  exact le_trans h1 h2

theorem lexicographicOrder_perm (text : Symbol → String) (b : Bindings) :
    (b.lexicographicOrder text).Perm (List.range b.size_) :=
  stdSort_perm _ _

theorem lexicographicOrder_pairwise (text : Symbol → String) (b : Bindings) :
    (b.lexicographicOrder text).Pairwise
      (fun a c => ¬ text (b.attrs c).name < text (b.attrs a).name) := by
  have h := stdSort_pairwise
    (fun a c => decide (text (b.attrs a).name < text (b.attrs c).name))
    (fun x y hxy => by
      simp only [decide_eq_true_eq] at hxy ⊢
      exact string_lt_asymm _ _ hxy)
    (fun x y z h1 h2 => by
      simp only [decide_eq_true_eq] at h1 h2 ⊢
      exact string_not_lt_trans _ _ _ h1 h2)
    (List.range b.size_)
  refine List.Pairwise.imp ?_ h
  intro a c hac
  simpa only [decide_eq_true_eq] using hac

/-- The comparison of texts, as the comparison of their sequences of characters. -/
theorem lexicographicOrder_eq_toList (text : Symbol → String) (b : Bindings) :
    b.lexicographicOrder text =
      stdSort (fun a c => decide ((text (b.attrs a).name).toList < (text (b.attrs c).name).toList))
        (List.range b.size_) := by
  unfold Bindings.lexicographicOrder
  apply stdSort_congr
  intro x _ y _
  exact decide_eq_decide.mpr String.lt_iff_toList_lt

/-- C11: for every container, sealed or not, `lexicographicOrder()` returns exactly `size`
entries, a permutation of the slots `0 .. size-1` (every entry is below `size`, none occurs
twice), in which the text of the name of an entry is never greater than the text of the name of
the entry that follows it, nor of any later entry; the container is left as it was. -/
theorem lexicographicOrder_sorted_perm (gc : GC) (text : Symbol → String) (b : Bindings) :
    (b.lexicographicOrder text).length = b.size ∧
    (b.lexicographicOrder text).Perm (List.range b.size) ∧
    (∀ i, i ∈ b.lexicographicOrder text ↔ i < b.size) ∧
    (b.lexicographicOrder text).Nodup ∧
    (b.lexicographicOrder text).Chain'
      (fun a c => ¬ text (b.attrs c).name < text (b.attrs a).name) ∧
    (b.lexicographicOrder text).Pairwise
      (fun a c => ¬ text (b.attrs c).name < text (b.attrs a).name) ∧
    Op.lexicographicOrder.exec gc b = Outcome.done b := by
  have hp := lexicographicOrder_perm text b
  refine ⟨?_, hp, ?_, ?_, (lexicographicOrder_pairwise text b).chain',
    lexicographicOrder_pairwise text b, rfl⟩
  · rw [hp.length_eq, List.length_range]; rfl
  · intro i
    rw [hp.mem_iff, List.mem_range]; rfl
  · exact hp.nodup_iff.mpr (List.nodup_range _)

theorem lexicographicOrder_sorted_perm_witness :
    builtBAC.lexicographicOrder textBAC = [1, 0, 2] ∧
    builtBAC.sort.lexicographicOrder textBAC = [1, 0, 2] ∧
    (builtBAC.lexicographicOrder textBAC).Perm (List.range builtBAC.size) ∧
    (builtBAC.lexicographicOrder textBAC).Chain'
      (fun a c => ¬ textBAC (builtBAC.attrs c).name < textBAC (builtBAC.attrs a).name) :=
  ⟨by rw [lexicographicOrder_eq_toList]; decide,
   by rw [lexicographicOrder_eq_toList]; decide,
   (lexicographicOrder_sorted_perm gcNonNull textBAC builtBAC).2.1,
   (lexicographicOrder_sorted_perm gcNonNull textBAC builtBAC).2.2.2.2.1⟩

/-! ## Independence from the append order and the interning -/

theorem lexicographicRecords_perm (text : Symbol → String) (b : Bindings) :
    (b.lexicographicRecords text).Perm (b.slots.map (Attr.shown text)) := by
  unfold Bindings.lexicographicRecords Bindings.slots
  rw [List.map_map]
  exact (lexicographicOrder_perm text b).map _

theorem lexicographicRecords_pairwise (text : Symbol → String) (b : Bindings) :
    (b.lexicographicRecords text).Pairwise (fun v w => ¬ w.1 < v.1) := by
  unfold Bindings.lexicographicRecords
  rw [List.pairwise_map]
  exact lexicographicOrder_pairwise text b

/-- With pairwise distinct texts the enumeration is strictly increasing. -/
theorem lexicographicRecords_strict (text : Symbol → String) (b : Bindings)
    (hd : ((b.lexicographicRecords text).map (fun v => v.1)).Nodup) :
    (b.lexicographicRecords text).Pairwise (fun v w => v.1 < w.1) := by
  have hne : (b.lexicographicRecords text).Pairwise (fun v w => v.1 ≠ w.1) :=
    List.pairwise_map.mp hd
  refine List.Pairwise.imp ?_ ((lexicographicRecords_pairwise text b).and hne)
  intro v w h
  exact lt_of_le_of_ne (not_lt.mp h.1) h.2

/-- Two sequences with the same elements, both strictly increasing in the text, are equal. -/
theorem eq_of_perm_of_strict (l l' : List (String × ValueRef × Pos)) (hp : l.Perm l')
    (h : l.Pairwise (fun v w => v.1 < w.1)) (h' : l'.Pairwise (fun v w => v.1 < w.1)) :
    l = l' := by
  haveI : IsAntisymm (String × ValueRef × Pos) (fun v w => v.1 < w.1) :=
    ⟨fun v w h1 h2 => absurd h2 (lt_asymm h1)⟩
  exact List.eq_of_perm_of_sorted hp h h'

/-- C12: two containers that hold the same records, a record being the text of its name with
its value and position, the texts pairwise distinct, enumerate these records in the same sequence
with `lexicographicOrder()`, whatever the order of their slots and whatever interning `text1`,
`text2` their names come from. -/
theorem lexicographicOrder_independent (text1 text2 : Symbol → String) (b1 b2 : Bindings)
    (hsame : (b1.slots.map (Attr.shown text1)).Perm (b2.slots.map (Attr.shown text2)))
    (hd : (b1.slots.map (fun a => text1 a.name)).Nodup) :
    b1.lexicographicRecords text1 = b2.lexicographicRecords text2 := by
  have hp1 := lexicographicRecords_perm text1 b1
  have hp2 := lexicographicRecords_perm text2 b2
  have hp : (b1.lexicographicRecords text1).Perm (b2.lexicographicRecords text2) :=
    hp1.trans (hsame.trans hp2.symm)
  have hfst : (b1.slots.map (Attr.shown text1)).map (fun v => v.1) =
      b1.slots.map (fun a => text1 a.name) := by
    rw [List.map_map]; rfl
  have hd1 : ((b1.lexicographicRecords text1).map (fun v => v.1)).Nodup := by
    refine ((hp1.map (fun v => v.1)).nodup_iff).mpr ?_
    rw [hfst]; exact hd
  have hd2 : ((b2.lexicographicRecords text2).map (fun v => v.1)).Nodup :=
    ((hp.map (fun v => v.1)).nodup_iff).mp hd1
  exact eq_of_perm_of_strict _ _ hp (lexicographicRecords_strict text1 b1 hd1)
    (lexicographicRecords_strict text2 b2 hd2)

theorem lexicographicOrder_independent_witness :
    ((builtBAC.slots.map (Attr.shown textBAC)).Perm (builtACB.slots.map (Attr.shown textCBA)) ∧
      (builtBAC.slots.map (fun a => textBAC a.name)).Nodup) ∧
    builtBAC.lexicographicRecords textBAC = builtACB.lexicographicRecords textCBA ∧
    builtBAC.slots.map (Attr.shown textBAC) =
      [("b", ⟨101⟩, noPos), ("a", ⟨102⟩, noPos), ("c", ⟨103⟩, noPos)] ∧
    builtACB.slots.map (Attr.shown textCBA) =
      [("a", ⟨102⟩, noPos), ("c", ⟨103⟩, noPos), ("b", ⟨101⟩, noPos)] ∧
    builtBAC.lexicographicRecords textBAC =
      [("a", ⟨102⟩, noPos), ("b", ⟨101⟩, noPos), ("c", ⟨103⟩, noPos)] ∧
    builtACB.sort.lexicographicRecords textCBA =
      [("a", ⟨102⟩, noPos), ("b", ⟨101⟩, noPos), ("c", ⟨103⟩, noPos)] :=
  ⟨⟨by decide, by decide⟩,
   lexicographicOrder_independent textBAC textCBA builtBAC builtACB (by decide) (by decide),
   by decide, by decide,
   by unfold Bindings.lexicographicRecords; rw [lexicographicOrder_eq_toList]; decide,
   by unfold Bindings.lexicographicRecords; rw [lexicographicOrder_eq_toList]; decide⟩

/-! ## Tracing during construction -/

/-- During construction every slot below `size` holds a value that passed the validity check. -/
theorem pushAll_state_valid (gc : GC) : ∀ (rs : List Attr) (b : Bindings),
    (∀ i, i < b.size_ → gc.assertObject (b.attrs i).value = true) →
    ∀ i, i < (pushAll gc b rs).state.size_ →
      gc.assertObject ((pushAll gc b rs).state.attrs i).value = true := by
  intro rs
  induction rs with
  | nil => intro b hb i hi; exact hb i hi
  | cons r rs ih =>
    intro b hb
    by_cases hc : b.size_ < b.capacity ∧ gc.assertObject r.value = true
    · simp only [pushAll, push_back_done hc.1 hc.2]
      apply ih
      intro i hi
      dsimp only at hi ⊢
      by_cases hi' : i = b.size_
      · rw [hi', Function.update_same]; exact hc.2
      · rw [Function.update_noteq hi']; exact hb i (by omega)
    · simp only [pushAll, push_back_abort hc]
      exact hb

/-- C17: at every point of the construction of a container, right after the constructor and
after any number of `push_back` calls, the collector visits no slot when the size is 0, visits
only slots of index below `size`, never a slot of `[size, capacity)`, and every reference it
finds is a value that passed the validity check when it was appended. -/
theorem trace_within_size (gc : GC) (capacity : Nat) (mem : Nat → Attr) (rs : List Attr) :
    gc.traceSlots (Bindings.new capacity mem) = [] ∧
    (∀ i, i ∈ gc.traceSlots (pushAll gc (Bindings.new capacity mem) rs).state →
      i < (pushAll gc (Bindings.new capacity mem) rs).state.size) ∧
    (∀ i, (pushAll gc (Bindings.new capacity mem) rs).state.size ≤ i →
      i < (pushAll gc (Bindings.new capacity mem) rs).state.capacity →
      i ∉ gc.traceSlots (pushAll gc (Bindings.new capacity mem) rs).state) ∧
    (∀ v, v ∈ gc.trace (pushAll gc (Bindings.new capacity mem) rs).state →
      gc.assertObject v = true) := by
  refine ⟨rfl, ?_, ?_, ?_⟩
  · intro i hi
    exact List.mem_range.mp hi
  · intro i hi _ hmem
    have : i < (pushAll gc (Bindings.new capacity mem) rs).state.size_ := List.mem_range.mp hmem
    have hi' : (pushAll gc (Bindings.new capacity mem) rs).state.size_ ≤ i := hi
    omega
  · intro v hv
    obtain ⟨i, hi, rfl⟩ := List.mem_map.mp hv
    exact pushAll_state_valid gc rs (Bindings.new capacity mem)
      (fun i hi => absurd hi (Nat.not_lt_zero i)) i (List.mem_range.mp hi)

theorem trace_within_size_witness :
    (pushAll gcNonNull (Bindings.new 3 junk) [recB]).state.capacity = 3 ∧
    gcNonNull.traceSlots (pushAll gcNonNull (Bindings.new 3 junk) [recB]).state = [0] ∧
    gcNonNull.trace (pushAll gcNonNull (Bindings.new 3 junk) [recB]).state = [⟨101⟩] ∧
    (∀ i, (pushAll gcNonNull (Bindings.new 3 junk) [recB]).state.size ≤ i →
      i < (pushAll gcNonNull (Bindings.new 3 junk) [recB]).state.capacity →
      i ∉ gcNonNull.traceSlots (pushAll gcNonNull (Bindings.new 3 junk) [recB]).state) :=
  ⟨by decide, by decide, by decide, (trace_within_size gcNonNull 3 junk [recB]).2.2.1⟩

end nix
